import Mathlib

/-!
# Common query representation (package `cqr`)

A shallow embedding of `commonqueryrepresentation.go`.

Modelling decisions, all forced by Go's semantics rather than by the prose
specification:

* A Go `map` is a *reference*: a struct copy (value receiver, `return k`) copies
  the reference, not the entries.  Map objects therefore live in an explicit
  `Heap`, and a node stores an address (`none` for the nil map of a struct
  whose `Options` field was never initialised).
* `interface{}` option values are a closed sample of dynamic kinds (`Value`),
  with the nil interface as `Value.nil`, the zero value a map read yields for
  a missing key.  A stored value with a `String` method of its own (a node put
  into an option store, which `%v` would print through that method) is not
  among them.
* The interface `CommonQueryRepresentation` is the closed sum of its two
  implementations in the package; implementations from other packages are
  outside the model.  The type `CommonQueryRepresentation` holds the trees
  without a nil interface value; `InterfaceValue` adds the nil interface, and
  its methods return `none` where the Go code panics.
* Go strings are modelled as Lean strings (valid UTF-8 text); on such text
  Go's bytewise string order is the lexicographic order of the code points.
* `fmt`'s `%v` verb is modelled for the operand types the package passes to
  it: `string`, `[]string`, `map[string]interface{}` (printed in sorted key
  order, as `fmt` does since Go 1.12).
-/

namespace cqr

/-! ## Go runtime: dynamic values, maps, heap -/

/-- Dynamic values stored behind `interface{}`. -/
inductive Value where
  | nil
  | str (s : String)
  | int (i : Int)
  | bool (b : Bool)
  deriving DecidableEq

/-- Read of `m[key]` on the entry list: the nil interface when `key` is missing. -/
def entriesGet : List (String × Value) → String → Value
  | [], _ => Value.nil
  | (k, v) :: es, key => if k = key then v else entriesGet es key

/-- Assignment `m[key] = value` on the entry list: overwrite the entry of `key`
if there is one, add an entry otherwise. -/
def entriesSet : List (String × Value) → String → Value → List (String × Value)
  | [], key, value => [(key, value)]
  | (k, v) :: es, key, value =>
    if k = key then (k, value) :: es else (k, v) :: entriesSet es key value

theorem keys_entriesSet (es : List (String × Value)) (key : String) (value : Value) :
    (entriesSet es key value).map Prod.fst =
      if key ∈ es.map Prod.fst then es.map Prod.fst else es.map Prod.fst ++ [key] := by
  induction es with
  | nil => simp [entriesSet]
  | cons e es ih =>
    obtain ⟨k, v⟩ := e
    by_cases hk : k = key
    · simp [entriesSet, hk]
    · have hk' : ¬ key = k := fun h => hk h.symm
      by_cases hm : key ∈ es.map Prod.fst
      · simp only [entriesSet, hk, if_false, List.map_cons, ih, hm, if_true, List.mem_cons,
          or_true]
      · simp only [entriesSet, hk, if_false, List.map_cons, ih, hm, List.mem_cons, hk',
          or_self, List.cons_append]

theorem nodup_keys_entriesSet (es : List (String × Value)) (key : String) (value : Value)
    (h : (es.map Prod.fst).Nodup) : ((entriesSet es key value).map Prod.fst).Nodup := by
  rw [keys_entriesSet]
  split
  · exact h
  · rename_i hm
    exact List.Nodup.append h (List.nodup_singleton key) (by simpa using hm)

/-- A Go `map[string]interface{}` object: finitely many entries with unique keys. -/
structure GoMap where
  entries : List (String × Value)
  nodup : (entries.map Prod.fst).Nodup

/-- The empty map of the composite literal `map[string]interface{}{}`. -/
def GoMap.empty : GoMap := ⟨[], List.nodup_nil⟩

/-- Index expression `m[key]`. -/
def GoMap.get (m : GoMap) (key : String) : Value := entriesGet m.entries key

/-- Assignment `m[key] = value`. -/
def GoMap.set (m : GoMap) (key : String) (value : Value) : GoMap :=
  ⟨entriesSet m.entries key value, nodup_keys_entriesSet m.entries key value m.nodup⟩

/-- Addresses of map objects. -/
abbrev Addr := Nat

/-- The heap of map objects: the contents at every address and the next unused address. -/
structure Heap where
  maps : Addr → GoMap
  next : Addr

/-- A heap on which nothing has been allocated. -/
def Heap.init : Heap := ⟨fun _ => GoMap.empty, 0⟩

/-- Evaluation of `map[string]interface{}{}`: allocate a new, empty map object. -/
def Heap.makeMap (h : Heap) : Heap × Addr :=
  (⟨Function.update h.maps h.next GoMap.empty, h.next + 1⟩, h.next)

/-- The map a reference denotes when it is read; reading the nil map behaves like
reading an empty map. -/
def Heap.read (h : Heap) : Option Addr → GoMap
  | none => GoMap.empty
  | some a => h.maps a

/-- The write `m[key] = value` through the reference `a`. -/
def Heap.write (h : Heap) (a : Addr) (key : String) (value : Value) : Heap :=
  ⟨Function.update h.maps a ((h.maps a).set key value), h.next⟩

/-! ## Go library: `fmt` and `strings.TrimSpace` -/

/-- Rendering by `%v` of a dynamic value. -/
def fmtValue : Value → String
  | Value.nil => "<nil>"
  | Value.str s => s
  | Value.int i => toString i
  | Value.bool b => if b then "true" else "false"

/-- Rendering by `%v` of a `[]string`: the elements separated by single spaces, in
brackets. -/
def fmtStrings (xs : List String) : String := "[" ++ " ".intercalate xs ++ "]"

/-- The order in which `fmt` visits the keys of a map: Go's `<` on strings. -/
def keyLE (a b : String × Value) : Prop := a.1 ≤ b.1

instance : DecidableRel keyLE := fun a b =>
  decidable_of_iff (a.1.data ≤ b.1.data) String.le_iff_toList_le.symm

/-- The entries of a map in the order `fmt` prints them. -/
def sortedEntries (m : GoMap) : List (String × Value) := m.entries.insertionSort keyLE

/-- One printed map entry, `key:value`. -/
def fmtEntry (e : String × Value) : String := e.1 ++ ":" ++ fmtValue e.2

/-- Rendering by `%v` of a `map[string]interface{}`: `map[k1:v1 k2:v2]`, keys sorted. -/
def fmtMap (m : GoMap) : String :=
  "map[" ++ " ".intercalate ((sortedEntries m).map fmtEntry) ++ "]"

/-- Go's `unicode.IsSpace`. -/
def isSpace (c : Char) : Bool :=
  let r := c.toNat
  r = 0x09 || r = 0x0A || r = 0x0B || r = 0x0C || r = 0x0D || r = 0x20 ||
  r = 0x85 || r = 0xA0 || r = 0x1680 || (0x2000 ≤ r && r ≤ 0x200A) ||
  r = 0x2028 || r = 0x2029 || r = 0x202F || r = 0x205F || r = 0x3000

/-- Go's `strings.TrimSpace`: drop leading and trailing white space. -/
def TrimSpace (s : String) : String :=
  ⟨(s.data.dropWhile isSpace).rdropWhile isSpace⟩

/-! ## The package -/

/-- The interface `CommonQueryRepresentation` as the sum of the struct types
`Keyword` and `BooleanQuery`, with their fields. -/
inductive CommonQueryRepresentation where
  | Keyword (QueryString : String) (Fields : List String) (Options : Option Addr)
  | BooleanQuery (Operator : String) (Children : List CommonQueryRepresentation)
      (Options : Option Addr)

/-- The `Options` field of either struct. -/
def CommonQueryRepresentation.Options : CommonQueryRepresentation → Option Addr
  | .Keyword _ _ o => o
  | .BooleanQuery _ _ o => o

/-- Methods `Keyword.SetOption` and `BooleanQuery.SetOption`.  The receiver is a
copy of the struct holding the same map reference; the assignment writes into
that map object, and panics (`none`) on the nil map. -/
def CommonQueryRepresentation.SetOption (h : Heap) (n : CommonQueryRepresentation)
    (key : String) (value : Value) : Option (Heap × CommonQueryRepresentation) :=
  match n with
  | .Keyword q fs o =>
    match o with
    | none => none
    | some a => some (h.write a key value, .Keyword q fs (some a))
  | .BooleanQuery op cs o =>
    match o with
    | none => none
    | some a => some (h.write a key value, .BooleanQuery op cs (some a))

/-- Methods `Keyword.GetOption` and `BooleanQuery.GetOption`. -/
def CommonQueryRepresentation.GetOption (h : Heap) (n : CommonQueryRepresentation)
    (key : String) : Value :=
  match n with
  | .Keyword _ _ o => (h.read o).get key
  | .BooleanQuery _ _ o => (h.read o).get key

mutual
/-- Methods `Keyword.String` and `BooleanQuery.String`. -/
def CommonQueryRepresentation.String (h : Heap) : CommonQueryRepresentation → String
  | .Keyword q fs o =>
    "`" ++ q ++ "`" ++ fmtStrings fs ++ "[" ++ fmtMap (h.read o) ++ "]"
  | .BooleanQuery op cs o =>
    TrimSpace
      (CommonQueryRepresentation.StringChildren h cs
        (" ( " ++ op ++ "[" ++ fmtMap (h.read o) ++ "]") ++ ") ")
/-- The loop `for _, child := range b.Children` of `BooleanQuery.String`, with
the accumulator `s`. -/
def CommonQueryRepresentation.StringChildren (h : Heap) :
    List CommonQueryRepresentation → String → String
  | [], s => s
  | child :: rest, s =>
    CommonQueryRepresentation.StringChildren h rest
      (s ++ (" " ++ CommonQueryRepresentation.String h child))
end

/-- Constructor `NewKeyword`. -/
def NewKeyword (h : Heap) (queryString : String) (fields : List String) :
    Heap × CommonQueryRepresentation :=
  let (h', a) := h.makeMap
  (h', .Keyword queryString fields (some a))

/-- Constructor `NewBooleanQuery`. -/
def NewBooleanQuery (h : Heap) (operator : String)
    (children : List CommonQueryRepresentation) : Heap × CommonQueryRepresentation :=
  let (h', a) := h.makeMap
  (h', .BooleanQuery operator children (some a))

/-- A sequence of `SetOption` calls, each on the node the previous call returned. -/
def SetOptions (h : Heap) (n : CommonQueryRepresentation) :
    List (String × Value) → Option (Heap × CommonQueryRepresentation)
  | [] => some (h, n)
  | (key, value) :: rest =>
    match n.SetOption h key value with
    | none => none
    | some (h', n') => SetOptions h' n' rest

/-- The option store of the node is a map object, not the nil map.  Constructors
return such nodes and `SetOption` keeps the reference. -/
def CommonQueryRepresentation.Initialised (n : CommonQueryRepresentation) : Prop :=
  ∃ a, n.Options = some a

/-- The rendering starts with white space. -/
def hasLeadingSpace (s : String) : Bool :=
  match s.data.head? with
  | some c => isSpace c
  | none => false

/-- The rendering ends with white space. -/
def hasTrailingSpace (s : String) : Bool :=
  match s.data.getLast? with
  | some c => isSpace c
  | none => false

/-- Two nodes are of the same variant and agree on everything but the option store:
`QueryString` and `Fields` for keywords, `Operator` and `Children` (as a sequence)
for Boolean queries. -/
def CommonQueryRepresentation.SameData :
    CommonQueryRepresentation → CommonQueryRepresentation → Prop
  | .Keyword q fs _, .Keyword q' fs' _ => q' = q ∧ fs' = fs
  | .BooleanQuery op cs _, .BooleanQuery op' cs' _ => op' = op ∧ cs' = cs
  | _, _ => False

/-- The Keyword rendering in the words of the specification (canonical form):
a backtick, the query string, a backtick, the fields as a bracketed list, then
`[`, the `key:value` pairs in sorted key order (separated by `sep`), `]`. -/
def specKeywordString (sep : String) (q : String) (fs : List String) (m : GoMap) : String :=
  "`" ++ q ++ "`" ++ fmtStrings fs ++ "[" ++ sep.intercalate ((sortedEntries m).map fmtEntry) ++ "]"

instance : IsTotal (String × Value) keyLE := ⟨fun a b => le_total a.1 b.1⟩

instance : IsTrans (String × Value) keyLE := ⟨fun _ _ _ hab hbc => le_trans hab hbc⟩

/-- Two maps hold the same key-to-value mapping: they have the same entries, in
whatever order these were stored.  (Equality of all reads `m[key]` is weaker: a
read does not tell an entry holding nil from a missing key.) -/
def SameMapping (m1 m2 : GoMap) : Prop :=
  (∀ e ∈ m1.entries, e ∈ m2.entries) ∧ (∀ e ∈ m2.entries, e ∈ m1.entries)

instance (m1 m2 : GoMap) : Decidable (SameMapping m1 m2) :=
  inferInstanceAs (Decidable ((∀ e ∈ m1.entries, e ∈ m2.entries) ∧
    (∀ e ∈ m2.entries, e ∈ m1.entries)))

mutual
/-- Two trees, each in its own heap, have identical shape and content: corresponding
nodes are of the same variant, with equal `QueryString` and `Fields`, or equal
`Operator` and corresponding children, and option stores holding the same mapping. -/
def SameContent (h1 h2 : Heap) : CommonQueryRepresentation → CommonQueryRepresentation → Prop
  | .Keyword q fs o, .Keyword q' fs' o' =>
    q = q' ∧ fs = fs' ∧ SameMapping (h1.read o) (h2.read o')
  | .BooleanQuery op cs o, .BooleanQuery op' cs' o' =>
    op = op' ∧ SameContentList h1 h2 cs cs' ∧ SameMapping (h1.read o) (h2.read o')
  | .Keyword _ _ _, .BooleanQuery _ _ _ => False
  | .BooleanQuery _ _ _, .Keyword _ _ _ => False
/-- Two child sequences have the same length and corresponding children of the same
content. -/
def SameContentList (h1 h2 : Heap) :
    List CommonQueryRepresentation → List CommonQueryRepresentation → Prop
  | [], [] => True
  | c :: cs, c' :: cs' => SameContent h1 h2 c c' ∧ SameContentList h1 h2 cs cs'
  | [], _ :: _ => False
  | _ :: _, [] => False
end

/-- The nodes reachable from `NewKeyword` or `NewBooleanQuery` by finitely many
successful `SetOption` calls, in whatever heaps the calls are made. -/
inductive Reachable : CommonQueryRepresentation → Prop
  | newKeyword (h : Heap) (q : String) (fs : List String) : Reachable (NewKeyword h q fs).2
  | newBooleanQuery (h : Heap) (op : String) (cs : List CommonQueryRepresentation) :
    Reachable (NewBooleanQuery h op cs).2
  | setOption (n : CommonQueryRepresentation) (h : Heap) (k : String) (v : Value) (h' : Heap)
    (n' : CommonQueryRepresentation) :
    Reachable n → n.SetOption h k v = some (h', n') → Reachable n'

/-- The tree of the concrete scenario,
`NewBooleanQuery("AND", [NewKeyword("cancer", "title"), NewKeyword("lung")])`, with
the arguments evaluated left to right. -/
def scenario (h : Heap) : Heap × CommonQueryRepresentation :=
  let (h1, c1) := NewKeyword h "cancer" ["title"]
  let (h2, c2) := NewKeyword h1 "lung" []
  NewBooleanQuery h2 "AND" [c1, c2]

/-- Two trees of the same content built one after the other through the package's
functions, the options of their keywords set in opposite orders. -/
def twoOrders : Option (Heap × CommonQueryRepresentation × CommonQueryRepresentation) :=
  let (h1, k1) := NewKeyword Heap.init "lung" ["title"]
  (SetOptions h1 k1 [("a", Value.int 1), ("b", Value.str "x")]).bind fun r1 =>
    let (h3, k2) := NewKeyword r1.1 "lung" ["title"]
    (SetOptions h3 k2 [("b", Value.str "x"), ("a", Value.int 1)]).bind fun r2 =>
      let (h5, b1) := NewBooleanQuery r2.1 "AND" [r1.2]
      let (h6, b2) := NewBooleanQuery h5 "AND" [r2.2]
      some (h6, b1, b2)

/-! ## Interface values that may be nil

Go lets a value of interface type `CommonQueryRepresentation` be nil, and
`NewBooleanQuery` stores whatever children it is given.  `InterfaceValue` is the
node type with that value added, and its methods return `none` where the Go code
panics: a method call on the nil interface, and the assignment to an entry of the
nil map.  `CommonQueryRepresentation` above is the fragment without nil, on which
the methods below agree with the ones above (`ofNode`). -/

/-- A value of the interface type: the nil interface, or a `Keyword` or
`BooleanQuery` struct whose children are again values of the interface type. -/
inductive InterfaceValue where
  | nil
  | Keyword (QueryString : String) (Fields : List String) (Options : Option Addr)
  | BooleanQuery (Operator : String) (Children : List InterfaceValue) (Options : Option Addr)

mutual
/-- A tree without a nil interface value, seen as an interface value. -/
def InterfaceValue.ofNode : CommonQueryRepresentation → InterfaceValue
  | .Keyword q fs o => .Keyword q fs o
  | .BooleanQuery op cs o => .BooleanQuery op (InterfaceValue.ofNodes cs) o
/-- The children of a tree without nil, seen as interface values. -/
def InterfaceValue.ofNodes : List CommonQueryRepresentation → List InterfaceValue
  | [] => []
  | c :: cs => InterfaceValue.ofNode c :: InterfaceValue.ofNodes cs
end

mutual
/-- No nil interface value occurs in the tree: the value itself is a struct and so
are its children, at every depth. -/
def InterfaceValue.NilFree : InterfaceValue → Bool
  | .nil => false
  | .Keyword _ _ _ => true
  | .BooleanQuery _ cs _ => InterfaceValue.NilFreeList cs
/-- No nil interface value occurs in the trees of the list. -/
def InterfaceValue.NilFreeList : List InterfaceValue → Bool
  | [] => true
  | c :: cs => InterfaceValue.NilFree c && InterfaceValue.NilFreeList cs
end

/-- Method call `n.GetOption(key)` on an interface value: a panic (`none`) on the
nil interface, the map read of `Keyword.GetOption` and `BooleanQuery.GetOption`
otherwise. -/
def InterfaceValue.GetOption (h : Heap) (n : InterfaceValue) (key : String) : Option Value :=
  match n with
  | .nil => none
  | .Keyword _ _ o => some ((h.read o).get key)
  | .BooleanQuery _ _ o => some ((h.read o).get key)

/-- Method call `n.SetOption(key, value)` on an interface value: a panic (`none`)
on the nil interface and on a struct whose `Options` is the nil map, the write of
`Keyword.SetOption` and `BooleanQuery.SetOption` otherwise. -/
def InterfaceValue.SetOption (h : Heap) (n : InterfaceValue) (key : String) (value : Value) :
    Option (Heap × InterfaceValue) :=
  match n with
  | .nil => none
  | .Keyword q fs o =>
    match o with
    | none => none
    | some a => some (h.write a key value, .Keyword q fs (some a))
  | .BooleanQuery op cs o =>
    match o with
    | none => none
    | some a => some (h.write a key value, .BooleanQuery op cs (some a))

/-- Constructor `NewKeyword`, returning an interface value. -/
def InterfaceValue.NewKeyword (h : Heap) (queryString : String) (fields : List String) :
    Heap × InterfaceValue :=
  let (h', a) := h.makeMap
  (h', .Keyword queryString fields (some a))

/-- Constructor `NewBooleanQuery` on children that may be nil: the slice is stored
as given. -/
def InterfaceValue.NewBooleanQuery (h : Heap) (operator : String)
    (children : List InterfaceValue) : Heap × InterfaceValue :=
  let (h', a) := h.makeMap
  (h', .BooleanQuery operator children (some a))

mutual
/-- Method call `n.String()` on an interface value: a panic (`none`) on the nil
interface; `Keyword.String`; `BooleanQuery.String`, which panics when the call
`child.String()` of its loop does. -/
def InterfaceValue.String (h : Heap) : InterfaceValue → Option String
  | .nil => none
  | .Keyword q fs o =>
    some ("`" ++ q ++ "`" ++ fmtStrings fs ++ "[" ++ fmtMap (h.read o) ++ "]")
  | .BooleanQuery op cs o =>
    match InterfaceValue.StringChildren h cs (" ( " ++ op ++ "[" ++ fmtMap (h.read o) ++ "]") with
    | none => none
    | some s => some (TrimSpace (s ++ ") "))
/-- The loop `for _, child := range b.Children` of `BooleanQuery.String` on
children that may be nil, with the accumulator `s`. -/
def InterfaceValue.StringChildren (h : Heap) : List InterfaceValue → String → Option String
  | [], s => some s
  | child :: rest, s =>
    match InterfaceValue.String h child with
    | none => none
    | some r => InterfaceValue.StringChildren h rest (s ++ (" " ++ r))
end

/-! ## Option store: reads and writes -/

theorem entriesGet_entriesSet_same (es : List (String × Value)) (key : String) (value : Value) :
    entriesGet (entriesSet es key value) key = value := by
  induction es with
  | nil => simp [entriesSet, entriesGet]
  | cons e es ih =>
    obtain ⟨k, v⟩ := e
    by_cases hk : k = key
    · simp [entriesSet, entriesGet, hk]
    · simp [entriesSet, entriesGet, hk, ih]

theorem entriesGet_entriesSet_ne (es : List (String × Value)) (key key' : String)
    (value : Value) (hne : key' ≠ key) :
    entriesGet (entriesSet es key value) key' = entriesGet es key' := by
  induction es with
  | nil => simp [entriesSet, entriesGet, hne.symm]
  | cons e es ih =>
    obtain ⟨k, v⟩ := e
    by_cases hk : k = key
    · subst hk
      simp [entriesSet, entriesGet, hne.symm]
    · by_cases hk' : k = key'
      · subst hk'
        simp [entriesSet, entriesGet, hk]
      · simp [entriesSet, entriesGet, hk, hk', ih]

theorem GoMap.get_set_same (m : GoMap) (key : String) (value : Value) :
    (m.set key value).get key = value :=
  entriesGet_entriesSet_same m.entries key value

theorem GoMap.get_set_ne (m : GoMap) (key key' : String) (value : Value) (hne : key' ≠ key) :
    (m.set key value).get key' = m.get key' :=
  entriesGet_entriesSet_ne m.entries key key' value hne

theorem GoMap.get_empty (key : String) : GoMap.empty.get key = Value.nil := rfl

theorem Heap.read_write_same (h : Heap) (a : Addr) (key : String) (value : Value) :
    (h.write a key value).read (some a) = (h.maps a).set key value := by
  simp [Heap.read, Heap.write]

/-- On an initialised node `SetOption` succeeds, returns the node itself (the same
fields and the same map reference) and writes the entry into the referenced map. -/
theorem SetOption_eq (h : Heap) (n : CommonQueryRepresentation) (a : Addr)
    (ha : n.Options = some a) (key : String) (value : Value) :
    n.SetOption h key value = some (h.write a key value, n) := by
  cases n with
  | Keyword q fs o =>
    simp only [CommonQueryRepresentation.Options] at ha
    subst ha
    rfl
  | BooleanQuery op cs o =>
    simp only [CommonQueryRepresentation.Options] at ha
    subst ha
    rfl

theorem GetOption_eq (h : Heap) (n : CommonQueryRepresentation) (key : String) :
    n.GetOption h key = (h.read n.Options).get key := by
  cases n <;> rfl

theorem GetOption_write_same (h : Heap) (n : CommonQueryRepresentation) (a : Addr)
    (ha : n.Options = some a) (key : String) (value : Value) :
    n.GetOption (h.write a key value) key = value := by
  rw [GetOption_eq, ha, Heap.read_write_same, GoMap.get_set_same]

theorem GetOption_write_ne (h : Heap) (n : CommonQueryRepresentation) (a : Addr)
    (ha : n.Options = some a) (key key' : String) (value : Value) (hne : key' ≠ key) :
    n.GetOption (h.write a key value) key' = n.GetOption h key' := by
  rw [GetOption_eq, GetOption_eq, ha, Heap.read_write_same, GoMap.get_set_ne _ _ _ _ hne]
  rfl

/-- A chain of `SetOption` calls on an initialised node succeeds, returns the node
itself, and leaves every key outside the chain as it was. -/
theorem SetOptions_eq (kvs : List (String × Value)) :
    ∀ (h : Heap) (n : CommonQueryRepresentation) (a : Addr), n.Options = some a →
      ∃ h', SetOptions h n kvs = some (h', n) ∧
        ∀ key, key ∉ kvs.map Prod.fst → n.GetOption h' key = n.GetOption h key := by
  induction kvs with
  | nil =>
    intro h n a _
    exact ⟨h, rfl, fun _ _ => rfl⟩
  | cons kv rest ih =>
    obtain ⟨k, v⟩ := kv
    intro h n a ha
    obtain ⟨h', hrun, hframe⟩ := ih (h.write a k v) n a ha
    refine ⟨h', ?_, ?_⟩
    · simp only [SetOptions, SetOption_eq h n a ha k v, hrun]
    · intro key hkey
      have hne : key ≠ k := fun e => hkey (by simp [e])
      have hrest : key ∉ rest.map Prod.fst := fun e => hkey (by simp at e ⊢; exact Or.inr e)
      rw [hframe key hrest, GetOption_write_ne h n a ha k key v hne]

theorem NewKeyword_Initialised (h : Heap) (q : String) (fs : List String) :
    (NewKeyword h q fs).2.Initialised := ⟨h.next, rfl⟩

theorem NewBooleanQuery_Initialised (h : Heap) (op : String)
    (cs : List CommonQueryRepresentation) : (NewBooleanQuery h op cs).2.Initialised :=
  ⟨h.next, rfl⟩

/-! ## Claims on the option store -/

/-- C1: for every node whose option store is initialised (every node built by a
constructor is), every key `k` and value `v`, `n.SetOption(k, v)` returns a node
and `GetOption(k)` on that node yields `v`. -/
theorem SetOption_then_GetOption (h : Heap) (n : CommonQueryRepresentation)
    (hinit : n.Initialised) (k : String) (v : Value) :
    ∃ h' n', n.SetOption h k v = some (h', n') ∧ n'.GetOption h' k = v := by
  obtain ⟨a, ha⟩ := hinit
  exact ⟨h.write a k v, n, SetOption_eq h n a ha k v, GetOption_write_same h n a ha k v⟩

/-- Witness of C1 on a keyword and a Boolean query fresh from their constructors. -/
theorem SetOption_then_GetOption_witness :
    ((NewKeyword Heap.init "cancer" ["title"]).2.Initialised ∧
      ∃ h' n', (NewKeyword Heap.init "cancer" ["title"]).2.SetOption
          (NewKeyword Heap.init "cancer" ["title"]).1 "boost" (Value.int 2) = some (h', n') ∧
        n'.GetOption h' "boost" = Value.int 2) ∧
    ((NewBooleanQuery Heap.init "AND" []).2.Initialised ∧
      ∃ h' n', (NewBooleanQuery Heap.init "AND" []).2.SetOption
          (NewBooleanQuery Heap.init "AND" []).1 "boost" (Value.int 2) = some (h', n') ∧
        n'.GetOption h' "boost" = Value.int 2) :=
  ⟨⟨NewKeyword_Initialised _ _ _,
      SetOption_then_GetOption _ _ (NewKeyword_Initialised _ _ _) "boost" (Value.int 2)⟩,
    ⟨NewBooleanQuery_Initialised _ _ _,
      SetOption_then_GetOption _ _ (NewBooleanQuery_Initialised _ _ _) "boost" (Value.int 2)⟩⟩

/-- C2, as stated, fails: on a keyword fresh from `NewKeyword`, `GetOption("k")`
yields nil; after `n.SetOption("k", "v1")` and `n.SetOption("k", "v2")` the same
call on the original node `n` yields `"v2"`. -/
theorem SetOption_changes_original :
    (NewKeyword Heap.init "q" []).2.GetOption (NewKeyword Heap.init "q" []).1 "k" = Value.nil ∧
    (((NewKeyword Heap.init "q" []).2.SetOption (NewKeyword Heap.init "q" []).1 "k"
          (Value.str "v1")).bind fun r1 =>
        ((NewKeyword Heap.init "q" []).2.SetOption r1.1 "k" (Value.str "v2")).map fun r2 =>
          (NewKeyword Heap.init "q" []).2.GetOption r2.1 "k") = some (Value.str "v2") ∧
    Value.str "v2" ≠ Value.nil := by
  decide

/-- C2, amended: for every node `n` with an initialised option store, key `k` and
values `v1`, `v2`, both calls `n.SetOption(k, v1)` and `n.SetOption(k, v2)` succeed
and write into the store the original node refers to: `GetOption(k)` on the
original `n` yields `v1` after the first call and `v2` after the second, and for
every other key it yields what it yielded before the calls. -/
theorem SetOption_shared_store (h : Heap) (n : CommonQueryRepresentation)
    (hinit : n.Initialised) (k : String) (v1 v2 : Value) :
    ∃ h1 n1 h2 n2, n.SetOption h k v1 = some (h1, n1) ∧ n.SetOption h1 k v2 = some (h2, n2) ∧
      n.GetOption h1 k = v1 ∧ n.GetOption h2 k = v2 ∧
      ∀ k', k' ≠ k → n.GetOption h2 k' = n.GetOption h k' := by
  obtain ⟨a, ha⟩ := hinit
  refine ⟨h.write a k v1, n, (h.write a k v1).write a k v2, n, SetOption_eq h n a ha k v1,
    SetOption_eq _ n a ha k v2, GetOption_write_same h n a ha k v1,
    GetOption_write_same _ n a ha k v2, ?_⟩
  intro k' hne
  rw [GetOption_write_ne _ n a ha k k' v2 hne, GetOption_write_ne _ n a ha k k' v1 hne]

/-- Witness of the amended C2 on a Boolean query fresh from its constructor. -/
theorem SetOption_shared_store_witness :
    (NewBooleanQuery Heap.init "OR" []).2.Initialised ∧
    ∃ h1 n1 h2 n2,
      (NewBooleanQuery Heap.init "OR" []).2.SetOption (NewBooleanQuery Heap.init "OR" []).1
        "k" (Value.str "v1") = some (h1, n1) ∧
      (NewBooleanQuery Heap.init "OR" []).2.SetOption h1 "k" (Value.str "v2") = some (h2, n2) ∧
      (NewBooleanQuery Heap.init "OR" []).2.GetOption h1 "k" = Value.str "v1" ∧
      (NewBooleanQuery Heap.init "OR" []).2.GetOption h2 "k" = Value.str "v2" ∧
      ∀ k', k' ≠ "k" → (NewBooleanQuery Heap.init "OR" []).2.GetOption h2 k' =
        (NewBooleanQuery Heap.init "OR" []).2.GetOption (NewBooleanQuery Heap.init "OR" []).1 k' :=
  ⟨NewBooleanQuery_Initialised _ _ _,
    SetOption_shared_store _ _ (NewBooleanQuery_Initialised _ _ _) "k" (Value.str "v1")
      (Value.str "v2")⟩

/-- C3: last write wins.  For every node `n` with an initialised option store, key
`k` and values `v1`, `v2`, the chain `n.SetOption(k, v1).SetOption(k, v2)` succeeds
and `GetOption(k)` on its result yields `v2`. -/
theorem SetOption_last_write_wins (h : Heap) (n : CommonQueryRepresentation)
    (hinit : n.Initialised) (k : String) (v1 v2 : Value) :
    ∃ h1 n1 h2 n2, n.SetOption h k v1 = some (h1, n1) ∧ n1.SetOption h1 k v2 = some (h2, n2) ∧
      n2.GetOption h2 k = v2 := by
  obtain ⟨a, ha⟩ := hinit
  exact ⟨h.write a k v1, n, (h.write a k v1).write a k v2, n, SetOption_eq h n a ha k v1,
    SetOption_eq _ n a ha k v2, GetOption_write_same _ n a ha k v2⟩

/-- Witness of C3 on a keyword fresh from its constructor. -/
theorem SetOption_last_write_wins_witness :
    (NewKeyword Heap.init "lung" []).2.Initialised ∧
    ∃ h1 n1 h2 n2,
      (NewKeyword Heap.init "lung" []).2.SetOption (NewKeyword Heap.init "lung" []).1
        "slop" (Value.int 1) = some (h1, n1) ∧
      n1.SetOption h1 "slop" (Value.int 5) = some (h2, n2) ∧
      n2.GetOption h2 "slop" = Value.int 5 :=
  ⟨NewKeyword_Initialised _ _ _,
    SetOption_last_write_wins _ _ (NewKeyword_Initialised _ _ _) "slop" (Value.int 1)
      (Value.int 5)⟩

/-- C4: `GetOption(k)` yields the nil interface for every key never stored, for both
variants: on a node from `NewKeyword` or `NewBooleanQuery` followed by any chain
of `SetOption` calls (the empty chain is the fresh node) and every `k` different
from all keys set, and on a node whose store is the nil map for every `k`. -/
theorem GetOption_never_stored (h : Heap) (q : String) (fs : List String) (op : String)
    (cs : List CommonQueryRepresentation) (kvs : List (String × Value)) (k : String)
    (hk : k ∉ kvs.map Prod.fst) :
    (∃ h' n', SetOptions (NewKeyword h q fs).1 (NewKeyword h q fs).2 kvs = some (h', n') ∧
      n'.GetOption h' k = Value.nil) ∧
    (∃ h' n', SetOptions (NewBooleanQuery h op cs).1 (NewBooleanQuery h op cs).2 kvs =
        some (h', n') ∧ n'.GetOption h' k = Value.nil) ∧
    (CommonQueryRepresentation.Keyword q fs none).GetOption h k = Value.nil ∧
    (CommonQueryRepresentation.BooleanQuery op cs none).GetOption h k = Value.nil := by
  refine ⟨?_, ?_, rfl, rfl⟩
  · obtain ⟨h', hrun, hframe⟩ :=
      SetOptions_eq kvs (NewKeyword h q fs).1 (NewKeyword h q fs).2 h.next rfl
    refine ⟨h', _, hrun, ?_⟩
    rw [hframe k hk]
    simp [NewKeyword, Heap.makeMap, CommonQueryRepresentation.GetOption, Heap.read,
      GoMap.get_empty]
  · obtain ⟨h', hrun, hframe⟩ :=
      SetOptions_eq kvs (NewBooleanQuery h op cs).1 (NewBooleanQuery h op cs).2 h.next rfl
    refine ⟨h', _, hrun, ?_⟩
    rw [hframe k hk]
    simp [NewBooleanQuery, Heap.makeMap, CommonQueryRepresentation.GetOption, Heap.read,
      GoMap.get_empty]

/-- Witness of C4: after setting `"a"` and `"b"`, the key `"c"` is absent. -/
theorem GetOption_never_stored_witness :
    "c" ∉ [("a", Value.int 1), ("b", Value.str "x")].map Prod.fst ∧
    ((∃ h' n', SetOptions (NewKeyword Heap.init "lung" ["title"]).1
        (NewKeyword Heap.init "lung" ["title"]).2 [("a", Value.int 1), ("b", Value.str "x")] =
          some (h', n') ∧ n'.GetOption h' "c" = Value.nil) ∧
    (∃ h' n', SetOptions (NewBooleanQuery Heap.init "AND" []).1
        (NewBooleanQuery Heap.init "AND" []).2 [("a", Value.int 1), ("b", Value.str "x")] =
          some (h', n') ∧ n'.GetOption h' "c" = Value.nil) ∧
    (CommonQueryRepresentation.Keyword "lung" ["title"] none).GetOption Heap.init "c" =
      Value.nil ∧
    (CommonQueryRepresentation.BooleanQuery "AND" [] none).GetOption Heap.init "c" =
      Value.nil) :=
  ⟨by decide, GetOption_never_stored Heap.init "lung" ["title"] "AND" []
    [("a", Value.int 1), ("b", Value.str "x")] "c" (by decide)⟩

theorem SameData_refl (n : CommonQueryRepresentation) : n.SameData n := by
  cases n <;> exact ⟨rfl, rfl⟩

/-- C5: `SetOption` changes only the mapping of its key.  For every node `n` with an
initialised option store, key `k` and value `v`, `n.SetOption(k, v)` returns a node
of the same variant with the same `QueryString` and `Fields` (Keyword) or the same
`Operator` and `Children` in the same order (BooleanQuery), and `GetOption(k')` on
the result equals `n.GetOption(k')` before the call for every `k'` other than `k`. -/
theorem SetOption_changes_only_key (h : Heap) (n : CommonQueryRepresentation)
    (hinit : n.Initialised) (k : String) (v : Value) :
    ∃ h' n', n.SetOption h k v = some (h', n') ∧ n.SameData n' ∧
      ∀ k', k' ≠ k → n'.GetOption h' k' = n.GetOption h k' := by
  obtain ⟨a, ha⟩ := hinit
  exact ⟨h.write a k v, n, SetOption_eq h n a ha k v, SameData_refl n,
    fun k' hne => GetOption_write_ne h n a ha k k' v hne⟩

/-- Witness of C5 on a Boolean query with two children. -/
theorem SetOption_changes_only_key_witness :
    (NewBooleanQuery Heap.init "AND"
        [CommonQueryRepresentation.Keyword "a" ["title"] none,
          CommonQueryRepresentation.Keyword "b" [] none]).2.Initialised ∧
    ∃ h' n',
      (NewBooleanQuery Heap.init "AND"
        [CommonQueryRepresentation.Keyword "a" ["title"] none,
          CommonQueryRepresentation.Keyword "b" [] none]).2.SetOption
        (NewBooleanQuery Heap.init "AND"
          [CommonQueryRepresentation.Keyword "a" ["title"] none,
            CommonQueryRepresentation.Keyword "b" [] none]).1 "k" (Value.bool true) =
        some (h', n') ∧
      (NewBooleanQuery Heap.init "AND"
        [CommonQueryRepresentation.Keyword "a" ["title"] none,
          CommonQueryRepresentation.Keyword "b" [] none]).2.SameData n' ∧
      ∀ k', k' ≠ "k" → n'.GetOption h' k' =
        (NewBooleanQuery Heap.init "AND"
          [CommonQueryRepresentation.Keyword "a" ["title"] none,
            CommonQueryRepresentation.Keyword "b" [] none]).2.GetOption
          (NewBooleanQuery Heap.init "AND"
            [CommonQueryRepresentation.Keyword "a" ["title"] none,
              CommonQueryRepresentation.Keyword "b" [] none]).1 k' :=
  ⟨NewBooleanQuery_Initialised _ _ _,
    SetOption_changes_only_key _ _ (NewBooleanQuery_Initialised _ _ _) "k" (Value.bool true)⟩

/-! ## Claims on the constructors -/

/-- C6: for every query string `q` and every list of fields `fs` (the empty list
included), `NewKeyword(q, fs...)` is a Keyword with `QueryString` `q`, `Fields` `fs`
in the given order, and an option store that is a map object without entries: no
key is present, `GetOption` yields nil for every key. -/
theorem NewKeyword_fields_and_empty_store (h : Heap) (q : String) (fs : List String) :
    ∃ a, (NewKeyword h q fs).2 = CommonQueryRepresentation.Keyword q fs (some a) ∧
      ((NewKeyword h q fs).1.read (some a)).entries = [] ∧
      ∀ k, (NewKeyword h q fs).2.GetOption (NewKeyword h q fs).1 k = Value.nil := by
  refine ⟨h.next, rfl, ?_, ?_⟩
  · simp [NewKeyword, Heap.makeMap, Heap.read, GoMap.empty]
  · intro k
    simp [NewKeyword, Heap.makeMap, CommonQueryRepresentation.GetOption, Heap.read,
      GoMap.get_empty]

/-- C7: for every operator string `op` (nothing is checked about it) and every list
of children `cs` (the empty list included), `NewBooleanQuery(op, cs)` returns a
BooleanQuery with `Operator` `op`, `Children` `cs` in the given order, and an option
store that is a map object without entries. -/
theorem NewBooleanQuery_fields_and_empty_store (h : Heap) (op : String)
    (cs : List CommonQueryRepresentation) :
    ∃ a, (NewBooleanQuery h op cs).2 = CommonQueryRepresentation.BooleanQuery op cs (some a) ∧
      ((NewBooleanQuery h op cs).1.read (some a)).entries = [] ∧
      ∀ k, (NewBooleanQuery h op cs).2.GetOption (NewBooleanQuery h op cs).1 k = Value.nil := by
  refine ⟨h.next, rfl, ?_, ?_⟩
  · simp [NewBooleanQuery, Heap.makeMap, Heap.read, GoMap.empty]
  · intro k
    simp [NewBooleanQuery, Heap.makeMap, CommonQueryRepresentation.GetOption, Heap.read,
      GoMap.get_empty]

/-! ## Rendering -/

theorem foldl_append_eq (xs : List String) (a b : String) :
    xs.foldl (· ++ ·) (a ++ b) = a ++ xs.foldl (· ++ ·) b := by
  induction xs generalizing b with
  | nil => rfl
  | cons x xs ih => simp only [List.foldl_cons, String.append_assoc, ih]

theorem join_nil : String.join [] = "" := rfl

theorem join_cons (x : String) (xs : List String) :
    String.join (x :: xs) = x ++ String.join xs := by
  have hx : ("" : String) ++ x = x ++ "" := by simp
  simp only [String.join, List.foldl_cons, hx, foldl_append_eq]

/-- The loop of `BooleanQuery.String` appends, for each child in order, a space and
the child's rendering. -/
theorem StringChildren_eq (h : Heap) (cs : List CommonQueryRepresentation) (s : String) :
    CommonQueryRepresentation.StringChildren h cs s =
      s ++ String.join (cs.map fun c => " " ++ c.String h) := by
  induction cs generalizing s with
  | nil => simp [CommonQueryRepresentation.StringChildren, String.join]
  | cons c cs ih =>
    simp only [CommonQueryRepresentation.StringChildren, ih, List.map_cons, join_cons,
      String.append_assoc]

theorem isSpace_space : isSpace ' ' = true := by decide

theorem isSpace_lparen : isSpace '(' = false := by decide

theorem isSpace_rparen : isSpace ')' = false := by decide

/-- Trimming a string that is wrapped in `" ( "` and `") "` removes exactly the
outer two spaces, whatever lies in between. -/
theorem TrimSpace_wrapped (x : String) :
    TrimSpace (" ( " ++ x ++ ") ") = "( " ++ x ++ ")" := by
  apply String.ext
  have h1 : (" ( " ++ x ++ ") ").data = ' ' :: ('(' :: ' ' :: x.data ++ [')']) ++ [' '] := by
    simp [String.data_append]
  have h2 : ("( " ++ x ++ ")").data = '(' :: ' ' :: x.data ++ [')'] := by
    simp [String.data_append]
  simp only [TrimSpace, h1, h2, List.cons_append]
  rw [List.dropWhile_cons_of_pos isSpace_space, List.dropWhile_cons_of_neg (by simp [isSpace_lparen])]
  have h3 : '(' :: ' ' :: (x.data ++ [')'] ++ [' ']) = ('(' :: ' ' :: x.data ++ [')']) ++ [' '] := by
    simp
  have h4 : '(' :: ' ' :: (x.data ++ [')']) = ('(' :: ' ' :: x.data) ++ [')'] := by simp
  rw [h3, List.rdropWhile_concat_pos _ _ _ isSpace_space, List.cons_append, List.cons_append, h4,
    List.rdropWhile_concat_neg _ _ _ (by simp [isSpace_rparen])]

/-- The rendering of a Boolean query, as one concatenation. -/
theorem BooleanQuery_String_eq (h : Heap) (op : String) (cs : List CommonQueryRepresentation)
    (o : Option Addr) :
    (CommonQueryRepresentation.BooleanQuery op cs o).String h =
      "( " ++ (op ++ "[" ++ fmtMap (h.read o) ++ "]" ++
        String.join (cs.map fun c => " " ++ c.String h)) ++ ")" := by
  rw [CommonQueryRepresentation.String, StringChildren_eq, ← TrimSpace_wrapped]
  simp only [String.append_assoc]

theorem hasLeadingSpace_wrapped (x : String) : hasLeadingSpace ("( " ++ x ++ ")") = false := by
  have h2 : ("( " ++ x ++ ")").data = '(' :: (' ' :: x.data ++ [')']) := by
    simp [String.data_append]
  simp [hasLeadingSpace, h2, isSpace_lparen]

theorem hasTrailingSpace_wrapped (x : String) : hasTrailingSpace ("( " ++ x ++ ")") = false := by
  have h2 : ("( " ++ x ++ ")").data = ('(' :: ' ' :: x.data) ++ [')'] := by
    simp [String.data_append]
  simp only [hasTrailingSpace, h2, List.getLast?_concat, isSpace_rparen]

/-- C8: for every BooleanQuery with operator `op`, option store `o` and children
`cs` (possibly none), `String()` is exactly `"( "`, `op`, `"["`, the rendering of the
option store, `"]"`, then for each child in order one space followed by that child's
`String()`, then `")"`; the result neither starts nor ends with white space,
whatever `op` and the children contain. -/
theorem BooleanQuery_String_format (h : Heap) (op : String)
    (cs : List CommonQueryRepresentation) (o : Option Addr) :
    (CommonQueryRepresentation.BooleanQuery op cs o).String h =
      "( " ++ op ++ "[" ++ fmtMap (h.read o) ++ "]" ++
        String.join (cs.map fun c => " " ++ c.String h) ++ ")" ∧
    hasLeadingSpace ((CommonQueryRepresentation.BooleanQuery op cs o).String h) = false ∧
    hasTrailingSpace ((CommonQueryRepresentation.BooleanQuery op cs o).String h) = false := by
  refine ⟨?_, ?_, ?_⟩
  · rw [BooleanQuery_String_eq]
    simp only [String.append_assoc]
  · rw [BooleanQuery_String_eq]
    exact hasLeadingSpace_wrapped _
  · rw [BooleanQuery_String_eq]
    exact hasTrailingSpace_wrapped _

/-- C9: for every BooleanQuery with the three children `[c1, c2, c3]`, `String()` is
the opening delimiter with operator and option store, then `c1.String()`,
`c2.String()`, `c3.String()` in that order, each rendered once and each preceded by
a single space, then the closing delimiter; in particular for the query
`NewBooleanQuery(op, [c1, c2, c3])`, whose option store renders as `map[]`. -/
theorem BooleanQuery_String_three_children (h : Heap) (op : String)
    (c1 c2 c3 : CommonQueryRepresentation) (o : Option Addr) :
    (CommonQueryRepresentation.BooleanQuery op [c1, c2, c3] o).String h =
      "( " ++ op ++ "[" ++ fmtMap (h.read o) ++ "]" ++
        " " ++ c1.String h ++ " " ++ c2.String h ++ " " ++ c3.String h ++ ")" ∧
    (NewBooleanQuery h op [c1, c2, c3]).2.String (NewBooleanQuery h op [c1, c2, c3]).1 =
      "( " ++ op ++ "[map[]]" ++
        " " ++ c1.String (NewBooleanQuery h op [c1, c2, c3]).1 ++
        " " ++ c2.String (NewBooleanQuery h op [c1, c2, c3]).1 ++
        " " ++ c3.String (NewBooleanQuery h op [c1, c2, c3]).1 ++ ")" := by
  have key : ∀ (h : Heap) (o : Option Addr),
      (CommonQueryRepresentation.BooleanQuery op [c1, c2, c3] o).String h =
      "( " ++ op ++ "[" ++ fmtMap (h.read o) ++ "]" ++
        " " ++ c1.String h ++ " " ++ c2.String h ++ " " ++ c3.String h ++ ")" := by
    intro h o
    rw [BooleanQuery_String_eq]
    simp only [List.map_cons, List.map_nil, join_cons, join_nil, String.append_assoc,
      String.append_empty]
  refine ⟨key h o, ?_⟩
  have hnew : NewBooleanQuery h op [c1, c2, c3] =
      ((h.makeMap).1, CommonQueryRepresentation.BooleanQuery op [c1, c2, c3] (some h.next)) := rfl
  have hmap : fmtMap ((h.makeMap).1.read (some h.next)) = "map[]" := by
    have : (h.makeMap).1.read (some h.next) = GoMap.empty := by
      simp [Heap.makeMap, Heap.read]
    rw [this]
    decide
  rw [hnew]
  simp only [key, hmap, String.append_assoc]
  rfl

/-- The entries are printed in the order of their keys, each entry once. -/
theorem sortedEntries_perm (m : GoMap) : (sortedEntries m).Perm m.entries :=
  List.perm_insertionSort keyLE m.entries

theorem sortedEntries_strict (m : GoMap) :
    (sortedEntries m).Pairwise fun a b => a.1 < b.1 := by
  have hsorted : (sortedEntries m).Pairwise keyLE := List.sorted_insertionSort keyLE m.entries
  have hnodup : ((sortedEntries m).map Prod.fst).Nodup :=
    ((sortedEntries_perm m).map Prod.fst).nodup_iff.mpr m.nodup
  have hne : (sortedEntries m).Pairwise fun a b => a.1 ≠ b.1 := List.pairwise_map.mp hnodup
  exact (hsorted.and hne).imp fun hab => lt_of_le_of_ne hab.1 hab.2

/-- C10, as stated, fails: the keyword `NewKeyword("lung")`, whose option store is
empty, renders as `lung` in backticks followed by `[][map[]]`; the canonical form has
`[][]` there, whatever separates the pairs. -/
theorem Keyword_String_has_map_wrapper :
    (NewKeyword Heap.init "lung" []).2.String (NewKeyword Heap.init "lung" []).1 =
      "`lung`[][map[]]" ∧
    ¬ ∃ sep, (NewKeyword Heap.init "lung" []).2.String (NewKeyword Heap.init "lung" []).1 =
      specKeywordString sep "lung" []
        ((NewKeyword Heap.init "lung" []).1.read (NewKeyword Heap.init "lung" []).2.Options) := by
  refine ⟨by decide, ?_⟩
  rintro ⟨sep, hsep⟩
  have hcode : (NewKeyword Heap.init "lung" []).2.String (NewKeyword Heap.init "lung" []).1 =
      "`lung`[][map[]]" := by decide
  have hspec : specKeywordString sep "lung" []
      ((NewKeyword Heap.init "lung" []).1.read (NewKeyword Heap.init "lung" []).2.Options) =
      "`lung`[][]" := rfl
  rw [hcode, hspec] at hsep
  exact absurd hsep (by decide)

/-- C10, amended: for every Keyword, `String()` is a backtick, the `QueryString`, a
backtick, the fields in original order separated by single spaces inside `[` `]`,
then `[`, the option store in the default map format, `]`; the default map format
is `map[`, the `key:value` pairs separated by single spaces, `]`, where the pairs
are the entries of the store, each once, in strictly increasing order of their
keys. -/
theorem Keyword_String_format (h : Heap) (q : String) (fs : List String) (o : Option Addr) :
    (CommonQueryRepresentation.Keyword q fs o).String h =
      "`" ++ q ++ "`" ++ ("[" ++ " ".intercalate fs ++ "]") ++ "[" ++
        ("map[" ++ " ".intercalate
          ((sortedEntries (h.read o)).map fun e => e.1 ++ ":" ++ fmtValue e.2) ++ "]") ++ "]" ∧
    (sortedEntries (h.read o)).Perm (h.read o).entries ∧
    (sortedEntries (h.read o)).Pairwise fun a b => a.1 < b.1 :=
  ⟨rfl, sortedEntries_perm _, sortedEntries_strict _⟩

/-- Evaluation of the rendering on a keyword with options set out of key order, one
of them twice: the returned node and the original node render alike. -/
theorem Keyword_String_evaluated :
    let (h1, c1) := NewKeyword Heap.init "cancer" ["title", "abs"]
    (SetOptions h1 c1 [("z", .int 3), ("a", .nil), ("z", .bool true), ("Zb", .int (-4))]).map
      (fun r => (r.2.String r.1, c1.String r.1)) =
      some ("`cancer`[title abs][map[Zb:-4 a:<nil> z:true]]", "`cancer`[title abs][map[Zb:-4 a:<nil> z:true]]") := by
  decide

/-! ## Claims on whole trees -/

theorem fmtMap_empty : fmtMap GoMap.empty = "map[]" := by decide

/-- A keyword whose store has no entries renders its options as `map[]`. -/
theorem Keyword_String_of_empty (h : Heap) (q : String) (fs : List String) (o : Option Addr)
    (ho : h.read o = GoMap.empty) :
    (CommonQueryRepresentation.Keyword q fs o).String h =
      "`" ++ q ++ "`" ++ fmtStrings fs ++ "[map[]]" := by
  rw [CommonQueryRepresentation.String, ho, fmtMap_empty]
  simp only [String.append_assoc]
  rfl

/-- C11, as stated, fails: on the scenario tree built on the initial heap `String()`
yields `( AND[map[]] ...)`, with a space after the opening parenthesis and `map[]`
for every empty option store, not the string of the claim. -/
theorem scenario_String_differs :
    (scenario Heap.init).2.String (scenario Heap.init).1 =
      "( AND[map[]] `cancer`[title][map[]] `lung`[][map[]])" ∧
    (scenario Heap.init).2.String (scenario Heap.init).1 ≠
      "(AND[] `cancer`[title][] `lung`[][])" := by
  decide

/-- C11, amended: for
`NewBooleanQuery("AND", [NewKeyword("cancer", "title"), NewKeyword("lung")])`, built
in any heap, `String()` yields exactly
`( AND[map[]] `cancer`[title][map[]] `lung`[][map[]])`. -/
theorem scenario_String (h : Heap) :
    (scenario h).2.String (scenario h).1 =
      "( AND[map[]] `cancer`[title][map[]] `lung`[][map[]])" := by
  have hs : scenario h =
      (⟨Function.update (Function.update (Function.update h.maps h.next GoMap.empty)
          (h.next + 1) GoMap.empty) (h.next + 1 + 1) GoMap.empty, h.next + 1 + 1 + 1⟩,
        CommonQueryRepresentation.BooleanQuery "AND"
          [CommonQueryRepresentation.Keyword "cancer" ["title"] (some h.next),
            CommonQueryRepresentation.Keyword "lung" [] (some (h.next + 1))]
          (some (h.next + 1 + 1))) := rfl
  rw [hs]
  simp only [BooleanQuery_String_eq, List.map_cons, List.map_nil, join_cons, join_nil]
  rw [Keyword_String_of_empty _ _ _ _ (by simp [Heap.read, Function.update]),
    Keyword_String_of_empty _ _ _ _ (by simp [Heap.read, Function.update])]
  have hb : Heap.read ⟨Function.update (Function.update (Function.update h.maps h.next
      GoMap.empty) (h.next + 1) GoMap.empty) (h.next + 1 + 1) GoMap.empty, h.next + 1 + 1 + 1⟩
      (some (h.next + 1 + 1)) = GoMap.empty := by
    simp [Heap.read]
  rw [hb, fmtMap_empty]
  decide

/-- C16: `String()` is not injective.  In any heap, `NewKeyword("a", "b c")` and
`NewKeyword("a", "b", "c")` are different keywords (one field against two) and
render identically. -/
theorem String_not_injective (h : Heap) :
    (NewKeyword h "a" ["b c"]).2 ≠ (NewKeyword h "a" ["b", "c"]).2 ∧
    (NewKeyword h "a" ["b c"]).2.String (NewKeyword h "a" ["b c"]).1 =
      (NewKeyword h "a" ["b", "c"]).2.String (NewKeyword h "a" ["b", "c"]).1 ∧
    (NewKeyword h "a" ["b c"]).2.String (NewKeyword h "a" ["b c"]).1 = "`a`[b c][map[]]" := by
  have hread : ∀ fs : List String, (NewKeyword h "a" fs).1.read (some h.next) = GoMap.empty := by
    intro fs
    simp [NewKeyword, Heap.makeMap, Heap.read]
  have h1 : (NewKeyword h "a" ["b c"]).2.String (NewKeyword h "a" ["b c"]).1 =
      "`a`[b c][map[]]" := by
    rw [show (NewKeyword h "a" ["b c"]).2 =
      CommonQueryRepresentation.Keyword "a" ["b c"] (some h.next) from rfl,
      Keyword_String_of_empty _ _ _ _ (hread _)]
    decide
  have h2 : (NewKeyword h "a" ["b", "c"]).2.String (NewKeyword h "a" ["b", "c"]).1 =
      "`a`[b c][map[]]" := by
    rw [show (NewKeyword h "a" ["b", "c"]).2 =
      CommonQueryRepresentation.Keyword "a" ["b", "c"] (some h.next) from rfl,
      Keyword_String_of_empty _ _ _ _ (hread _)]
    decide
  refine ⟨?_, h1.trans h2.symm, h1⟩
  intro heq
  have hfs : ["b c"] = ["b", "c"] := by
    simp only [NewKeyword, Heap.makeMap, CommonQueryRepresentation.Keyword.injEq] at heq
    exact heq.2.1
  exact absurd hfs (by decide)

/-- Maps holding the same mapping are printed alike: the printing order depends on
the keys only. -/
theorem sortedEntries_congr (m1 m2 : GoMap) (hm : SameMapping m1 m2) :
    sortedEntries m1 = sortedEntries m2 := by
  have d1 : m1.entries.Nodup := List.Nodup.of_map Prod.fst m1.nodup
  have d2 : m2.entries.Nodup := List.Nodup.of_map Prod.fst m2.nodup
  have hperm : m1.entries.Perm m2.entries :=
    (List.perm_ext_iff_of_nodup d1 d2).mpr fun e => ⟨hm.1 e, hm.2 e⟩
  have hsorted : (sortedEntries m1).Perm (sortedEntries m2) :=
    ((sortedEntries_perm m1).trans hperm).trans (sortedEntries_perm m2).symm
  haveI : IsAntisymm (String × Value) (fun a b => a.1 < b.1) :=
    ⟨fun _ _ hab hba => absurd hab (lt_asymm hba)⟩
  exact List.eq_of_perm_of_sorted hsorted (sortedEntries_strict m1) (sortedEntries_strict m2)

theorem fmtMap_congr (m1 m2 : GoMap) (hm : SameMapping m1 m2) : fmtMap m1 = fmtMap m2 := by
  rw [fmtMap, fmtMap, sortedEntries_congr m1 m2 hm]

mutual
/-- Trees of the same content render alike. -/
theorem String_congr (h1 h2 : Heap) :
    ∀ n1 n2 : CommonQueryRepresentation, SameContent h1 h2 n1 n2 →
      n1.String h1 = n2.String h2
  | .Keyword q fs o, .Keyword q' fs' o', hs => by
    simp only [SameContent] at hs
    obtain ⟨hq, hfs, hm⟩ := hs
    subst hq hfs
    rw [CommonQueryRepresentation.String, CommonQueryRepresentation.String,
      fmtMap_congr _ _ hm]
  | .BooleanQuery op cs o, .BooleanQuery op' cs' o', hs => by
    simp only [SameContent] at hs
    obtain ⟨hop, hcs, hm⟩ := hs
    subst hop
    rw [CommonQueryRepresentation.String, CommonQueryRepresentation.String,
      fmtMap_congr _ _ hm, StringChildren_congr h1 h2 cs cs' _ hcs]
  | .Keyword _ _ _, .BooleanQuery _ _ _, hs => by simp only [SameContent] at hs
  | .BooleanQuery _ _ _, .Keyword _ _ _, hs => by simp only [SameContent] at hs
/-- Child sequences of the same content extend an accumulator alike. -/
theorem StringChildren_congr (h1 h2 : Heap) :
    ∀ (cs cs' : List CommonQueryRepresentation) (s : String), SameContentList h1 h2 cs cs' →
      CommonQueryRepresentation.StringChildren h1 cs s =
        CommonQueryRepresentation.StringChildren h2 cs' s
  | [], [], _, _ => by
    rw [CommonQueryRepresentation.StringChildren, CommonQueryRepresentation.StringChildren]
  | c :: cs, c' :: cs', s, hs => by
    simp only [SameContentList] at hs
    rw [CommonQueryRepresentation.StringChildren, CommonQueryRepresentation.StringChildren,
      String_congr h1 h2 c c' hs.1, StringChildren_congr h1 h2 cs cs' _ hs.2]
  | [], _ :: _, _, hs => by simp only [SameContentList] at hs
  | _ :: _, [], _, hs => by simp only [SameContentList] at hs
end

theorem SameContent_root_store (h1 h2 : Heap) (n1 n2 : CommonQueryRepresentation)
    (hs : SameContent h1 h2 n1 n2) : SameMapping (h1.read n1.Options) (h2.read n2.Options) := by
  cases n1 <;> cases n2 <;> simp only [SameContent] at hs
  · exact hs.2.2
  · exact hs.2.2

/-- C12: rendering depends only on tree content.  For every two trees of identical
shape, in the same heap or in two heaps, whose corresponding nodes have equal
`QueryString` and `Fields`, or equal `Operator`, and option stores holding the same
entries (in whatever order they were set), `String()` yields the same output; the
options of the two roots are printed in one and the same order, strictly
increasing in the keys. -/
theorem String_deterministic (h1 h2 : Heap) (n1 n2 : CommonQueryRepresentation)
    (hsame : SameContent h1 h2 n1 n2) :
    n1.String h1 = n2.String h2 ∧
    sortedEntries (h1.read n1.Options) = sortedEntries (h2.read n2.Options) ∧
    (sortedEntries (h1.read n1.Options)).Pairwise fun a b => a.1 < b.1 := by
  refine ⟨String_congr h1 h2 n1 n2 hsame, ?_, sortedEntries_strict _⟩
  exact sortedEntries_congr _ _ (SameContent_root_store h1 h2 n1 n2 hsame)

/-- Witness of C12: the two trees of `twoOrders`, whose keywords had `"a"` and `"b"`
set in opposite orders, have the same content and render alike. -/
theorem String_deterministic_witness :
    ∃ h t1 t2, twoOrders = some (h, t1, t2) ∧ SameContent h h t1 t2 ∧
      (t1.String h = t2.String h ∧
        sortedEntries (h.read t1.Options) = sortedEntries (h.read t2.Options) ∧
        (sortedEntries (h.read t1.Options)).Pairwise fun a b => a.1 < b.1) := by
  refine ⟨_, _, _, rfl, ?hyp, String_deterministic _ _ _ _ ?hyp⟩
  simp only [SameContent, SameContentList]
  exact ⟨trivial, ⟨⟨trivial, trivial, by decide⟩, trivial⟩, by decide⟩

/-- Evaluation of the two renderings of `twoOrders`. -/
theorem twoOrders_evaluated :
    twoOrders.map (fun r => (r.2.1.String r.1, r.2.2.String r.1)) =
      some ("( AND[map[]] `lung`[title][map[a:1 b:x]])",
        "( AND[map[]] `lung`[title][map[a:1 b:x]])") := by
  decide

/-! ## Totality and the nil map -/

theorem SetOption_isSome (h : Heap) (n : CommonQueryRepresentation) (k : String) (v : Value) :
    (n.SetOption h k v).isSome = n.Options.isSome := by
  rcases n with ⟨q, fs, o⟩ | ⟨op, cs, o⟩ <;> cases o <;> rfl

/-! ### Agreement of the two node types, and where the methods panic -/

theorem GetOption_ofNode (h : Heap) (n : CommonQueryRepresentation) (k : String) :
    (InterfaceValue.ofNode n).GetOption h k = some (n.GetOption h k) := by
  cases n <;> rfl

theorem SetOption_ofNode (h : Heap) (n : CommonQueryRepresentation) (k : String) (v : Value) :
    (InterfaceValue.ofNode n).SetOption h k v =
      (n.SetOption h k v).map fun r => (r.1, InterfaceValue.ofNode r.2) := by
  rcases n with ⟨q, fs, o⟩ | ⟨op, cs, o⟩ <;> cases o <;> rfl

mutual
/-- On a tree without nil the rendering of the interface value is the rendering
`CommonQueryRepresentation.String`. -/
theorem String_ofNode (h : Heap) :
    ∀ n : CommonQueryRepresentation,
      (InterfaceValue.ofNode n).String h = some (n.String h)
  | .Keyword q fs o => by
    rw [InterfaceValue.ofNode, InterfaceValue.String, CommonQueryRepresentation.String]
  | .BooleanQuery op cs o => by
    rw [InterfaceValue.ofNode, InterfaceValue.String, CommonQueryRepresentation.String,
      StringChildren_ofNodes h cs]
theorem StringChildren_ofNodes (h : Heap) :
    ∀ (cs : List CommonQueryRepresentation) (s : String),
      InterfaceValue.StringChildren h (InterfaceValue.ofNodes cs) s =
        some (CommonQueryRepresentation.StringChildren h cs s)
  | [], s => by
    rw [InterfaceValue.ofNodes, InterfaceValue.StringChildren,
      CommonQueryRepresentation.StringChildren]
  | c :: cs, s => by
    rw [InterfaceValue.ofNodes, InterfaceValue.StringChildren, String_ofNode h c,
      CommonQueryRepresentation.StringChildren]
    exact StringChildren_ofNodes h cs _
end

mutual
/-- The rendering of an interface value completes exactly when no nil interface
value occurs in the tree. -/
theorem String_isSome (h : Heap) :
    ∀ n : InterfaceValue, (n.String h).isSome = n.NilFree
  | .nil => by rw [InterfaceValue.String, InterfaceValue.NilFree]; rfl
  | .Keyword q fs o => by rw [InterfaceValue.String, InterfaceValue.NilFree]; rfl
  | .BooleanQuery op cs o => by
    have ih := StringChildren_isSome h cs (" ( " ++ op ++ "[" ++ fmtMap (h.read o) ++ "]")
    rw [InterfaceValue.String, InterfaceValue.NilFree, ← ih]
    cases InterfaceValue.StringChildren h cs (" ( " ++ op ++ "[" ++ fmtMap (h.read o) ++ "]") <;>
      rfl
theorem StringChildren_isSome (h : Heap) :
    ∀ (cs : List InterfaceValue) (s : String),
      (InterfaceValue.StringChildren h cs s).isSome = InterfaceValue.NilFreeList cs
  | [], s => by rw [InterfaceValue.StringChildren, InterfaceValue.NilFreeList]; rfl
  | c :: cs, s => by
    have ihc := String_isSome h c
    rw [InterfaceValue.StringChildren, InterfaceValue.NilFreeList, ← ihc]
    cases hc : InterfaceValue.String h c with
    | none => rfl
    | some r =>
      rw [Option.isSome_some, Bool.true_and]
      exact StringChildren_isSome h cs _
end

/-- C13, as stated, fails, in two ways: `SetOption` panics on a Keyword and on a
BooleanQuery whose `Options` field was never initialised (assignment to an entry of
the nil map), and `String` panics on `NewBooleanQuery("AND", [nil])`, whose loop
calls `String` on the nil child. -/
theorem SetOption_and_String_panic :
    (InterfaceValue.Keyword "q" [] none).SetOption Heap.init "k" (Value.int 1) = none ∧
    (InterfaceValue.BooleanQuery "AND" [] none).SetOption Heap.init "k" (Value.int 1) = none ∧
    (CommonQueryRepresentation.Keyword "q" [] none).SetOption Heap.init "k" (Value.int 1) =
      none ∧
    (InterfaceValue.NewBooleanQuery Heap.init "AND" [InterfaceValue.nil]).2.String
      (InterfaceValue.NewBooleanQuery Heap.init "AND" [InterfaceValue.nil]).1 = none :=
  ⟨rfl, rfl, rfl, rfl⟩

/-- C13, amended: with option stores holding nil, string, integer or boolean values
(the kinds of `Value`), the constructors always return a node, whatever the
children (nil ones included); `GetOption` completes on every Keyword and
BooleanQuery value, yielding nil when `Options` was never initialised; `SetOption`
completes exactly when the receiver's `Options` is an initialised map; `String`
completes on every Keyword, printing an uninitialised store as `map[]`, and on a
BooleanQuery exactly when no nil interface value occurs among its children at any
depth; on a tree without nil its result is the rendering
`CommonQueryRepresentation.String`. -/
theorem operations_complete_iff (h : Heap) (q : String) (fs : List String) (op : String)
    (cs : List InterfaceValue) (o : Option Addr) (k : String) (v : Value) :
    (InterfaceValue.NewKeyword h q fs).2 = InterfaceValue.Keyword q fs (some h.next) ∧
    (InterfaceValue.NewBooleanQuery h op cs).2 =
      InterfaceValue.BooleanQuery op cs (some h.next) ∧
    (InterfaceValue.Keyword q fs o).GetOption h k = some ((h.read o).get k) ∧
    (InterfaceValue.BooleanQuery op cs o).GetOption h k = some ((h.read o).get k) ∧
    (InterfaceValue.Keyword q fs none).GetOption h k = some Value.nil ∧
    (InterfaceValue.BooleanQuery op cs none).GetOption h k = some Value.nil ∧
    ((InterfaceValue.Keyword q fs o).SetOption h k v).isSome = o.isSome ∧
    ((InterfaceValue.BooleanQuery op cs o).SetOption h k v).isSome = o.isSome ∧
    (InterfaceValue.Keyword q fs o).String h =
      some ("`" ++ q ++ "`" ++ fmtStrings fs ++ "[" ++ fmtMap (h.read o) ++ "]") ∧
    (InterfaceValue.Keyword q fs none).String h =
      some ("`" ++ q ++ "`" ++ fmtStrings fs ++ "[map[]]") ∧
    ((InterfaceValue.BooleanQuery op cs o).String h).isSome =
      InterfaceValue.NilFreeList cs ∧
    ∀ n : CommonQueryRepresentation, (InterfaceValue.ofNode n).String h = some (n.String h) := by
  refine ⟨rfl, rfl, rfl, rfl, rfl, rfl, ?_, ?_, ?_, ?_, ?_, String_ofNode h⟩
  · cases o <;> rfl
  · cases o <;> rfl
  · rw [InterfaceValue.String]
  · rw [InterfaceValue.String, show h.read none = GoMap.empty from rfl, fmtMap_empty]
    simp only [String.append_assoc]
    rfl
  · rw [String_isSome, InterfaceValue.NilFree]

/-- Evaluation of the methods on trees with and without a nil child: the rendering
of `NewBooleanQuery("OR", [NewKeyword("a"), nil])` panics, that of
`NewBooleanQuery("OR", [NewKeyword("a")])` is the one of the tree without nil. -/
theorem String_nil_child_evaluated :
    (InterfaceValue.NewBooleanQuery (InterfaceValue.NewKeyword Heap.init "a" []).1 "OR"
        [(InterfaceValue.NewKeyword Heap.init "a" []).2, InterfaceValue.nil]).2.String
      (InterfaceValue.NewBooleanQuery (InterfaceValue.NewKeyword Heap.init "a" []).1 "OR"
        [(InterfaceValue.NewKeyword Heap.init "a" []).2, InterfaceValue.nil]).1 = none ∧
    (InterfaceValue.NewBooleanQuery (InterfaceValue.NewKeyword Heap.init "a" []).1 "OR"
        [(InterfaceValue.NewKeyword Heap.init "a" []).2]).2.String
      (InterfaceValue.NewBooleanQuery (InterfaceValue.NewKeyword Heap.init "a" []).1 "OR"
        [(InterfaceValue.NewKeyword Heap.init "a" []).2]).1 =
      some "( OR[map[]] `a`[][map[]])" := by
  decide

/-- C14: the store conflates a missing key with an entry holding nil.  For every
node `n` with an initialised option store and every key `k`, `n.SetOption(k, nil)`
succeeds and `GetOption(k)` on its result yields what `GetOption(k)` yields on a
node that never stored `k` (a Keyword or a BooleanQuery fresh from its
constructor): the nil interface in both cases. -/
theorem SetOption_nil_same_as_missing (h : Heap) (n : CommonQueryRepresentation)
    (hinit : n.Initialised) (k : String) (h0 : Heap) (q : String) (fs : List String)
    (op : String) (cs : List CommonQueryRepresentation) :
    ∃ h' n', n.SetOption h k Value.nil = some (h', n') ∧
      n'.GetOption h' k = (NewKeyword h0 q fs).2.GetOption (NewKeyword h0 q fs).1 k ∧
      n'.GetOption h' k =
        (NewBooleanQuery h0 op cs).2.GetOption (NewBooleanQuery h0 op cs).1 k ∧
      n'.GetOption h' k = Value.nil := by
  obtain ⟨a, ha⟩ := hinit
  have hk : (NewKeyword h0 q fs).2.GetOption (NewKeyword h0 q fs).1 k = Value.nil := by
    simp [NewKeyword, Heap.makeMap, CommonQueryRepresentation.GetOption, Heap.read,
      GoMap.get_empty]
  have hb : (NewBooleanQuery h0 op cs).2.GetOption (NewBooleanQuery h0 op cs).1 k =
      Value.nil := by
    simp [NewBooleanQuery, Heap.makeMap, CommonQueryRepresentation.GetOption, Heap.read,
      GoMap.get_empty]
  refine ⟨h.write a k Value.nil, n, SetOption_eq h n a ha k Value.nil, ?_, ?_, ?_⟩
  · rw [hk, GetOption_write_same h n a ha k Value.nil]
  · rw [hb, GetOption_write_same h n a ha k Value.nil]
  · exact GetOption_write_same h n a ha k Value.nil

/-- Witness of C14 on a keyword that already holds a value under the key. -/
theorem SetOption_nil_same_as_missing_witness :
    (CommonQueryRepresentation.Keyword "lung" [] (some 0)).Initialised ∧
    ∃ h' n',
      (CommonQueryRepresentation.Keyword "lung" [] (some 0)).SetOption
        (Heap.init.write 0 "k" (Value.int 7)) "k" Value.nil = some (h', n') ∧
      n'.GetOption h' "k" =
        (NewKeyword Heap.init "other" []).2.GetOption (NewKeyword Heap.init "other" []).1 "k" ∧
      n'.GetOption h' "k" =
        (NewBooleanQuery Heap.init "OR" []).2.GetOption (NewBooleanQuery Heap.init "OR" []).1
          "k" ∧
      n'.GetOption h' "k" = Value.nil :=
  ⟨⟨0, rfl⟩, SetOption_nil_same_as_missing (Heap.init.write 0 "k" (Value.int 7))
    (CommonQueryRepresentation.Keyword "lung" [] (some 0)) ⟨0, rfl⟩ "k"
    Heap.init "other" [] "OR" []⟩

/-- C15: every node reachable from `NewKeyword` or `NewBooleanQuery` by finitely many
`SetOption` calls has an initialised option store (its `Options` is a map object,
not the nil map), so `SetOption` on it, in any heap, with any key and value,
returns a node and does not panic. -/
theorem Reachable_Initialised (n : CommonQueryRepresentation) (hr : Reachable n) :
    n.Initialised ∧ ∀ (h : Heap) (k : String) (v : Value), (n.SetOption h k v).isSome = true := by
  have hinit : n.Initialised := by
    induction hr with
    | newKeyword h q fs => exact NewKeyword_Initialised h q fs
    | newBooleanQuery h op cs => exact NewBooleanQuery_Initialised h op cs
    | setOption n h k v h' n' _ hset ih =>
      obtain ⟨a, ha⟩ := ih
      rw [SetOption_eq h n a ha k v] at hset
      have hn : n = n' := (Prod.mk.inj (Option.some.inj hset)).2
      exact hn ▸ ⟨a, ha⟩
  refine ⟨hinit, fun h k v => ?_⟩
  obtain ⟨a, ha⟩ := hinit
  rw [SetOption_isSome, ha]
  rfl

/-- Witness of C15: the keyword `NewKeyword("q")` after one `SetOption` call. -/
theorem Reachable_Initialised_witness :
    Reachable (CommonQueryRepresentation.Keyword "q" [] (some 0)) ∧
    ((CommonQueryRepresentation.Keyword "q" [] (some 0)).Initialised ∧
      ∀ (h : Heap) (k : String) (v : Value),
        ((CommonQueryRepresentation.Keyword "q" [] (some 0)).SetOption h k v).isSome = true) :=
  ⟨Reachable.setOption (NewKeyword Heap.init "q" []).2 (NewKeyword Heap.init "q" []).1 "k"
      (Value.int 1) _ _ (Reachable.newKeyword Heap.init "q" []) rfl,
    Reachable_Initialised _
      (Reachable.setOption (NewKeyword Heap.init "q" []).2 (NewKeyword Heap.init "q" []).1 "k"
        (Value.int 1) _ _ (Reachable.newKeyword Heap.init "q" []) rfl)⟩

end cqr
